import Mathlib

/-!
Verification of the reviews normalize/denormalize subsystem of the
frontend-mvp-architecture repository.

The embedded code consists of:
* the entity model (IReviewsEntity, IReviewsIndicatorsEntity, IReviewsReportsEntity)
  and the flat slice records (IReviewsIndicatorsSliceEntity, IReviewsReportSliceEntity);
* the pure normalizer normalizeReviewsReportEntity
  (src/v5-moderation/common/redux/slices/reviews/transformers/reviewsReportTransformers.ts);
* the three Redux entity-adapter collections (reviews, reviewsIndicators, reviewsReport)
  together with the reducers generated by createEntityAdapter
  (addOne, addMany, updateOne, removeOne, removeAll);
* the three denormalizing selectors selectDenormalizedReviews,
  selectDenormalizedReviewsIndicators and selectDenormalizedReviewsReports;
* the commit sequence performed by the repository hook after a fetch
  (addReviews; addReviewsIndicators; addReviewReport).

The entity-adapter state is a JavaScript object keyed by the numeric entity id.
Per the ECMAScript ordinary own-property-key ordering, enumeration of a plain
object whose keys are array indices (the case here: all ids are non-negative
integers) visits the keys in ascending numeric order, independently of
insertion order.  The `entities` record is therefore modelled as an
association list kept strictly sorted by key, on which `Object.values` is the
list of values in ascending key order.  The reducers follow the documented
semantics of createEntityAdapter from @reduxjs/toolkit: `addOne` adds an
entity only when its id is not already present (it is `setOne`, not `addOne`,
that replaces), `addMany` is iterated `addOne`, `updateOne` merges partial
changes into an existing entity and is a no-op on a missing id, `removeOne`
deletes, `removeAll` empties the collection.
-/

/-- Enumeration of review categories (ReviewsTypesEnum.ts). -/
inductive ReviewsTypesEnum where
  | MAUVAIS
  | NORMAL
  | BON
  | EXCELLENT
deriving DecidableEq, Repr

/-- A single review (IReviewsEntity.ts).  Numeric fields that the spec calls
signed are modelled as Int, identifiers as Nat. -/
structure IReviewsEntity where
  id : Nat
  message : String
  date : String
  toUserId : Nat
  rating : Int
  tableNumber : Nat
deriving DecidableEq, Repr

/-- A nested category indicator embedding full review objects
(IReviewsIndicatorsEntity in IReviewsReportEntity.ts). -/
structure IReviewsIndicatorsEntity where
  reviewsList : List IReviewsEntity
  type : ReviewsTypesEnum
  monthGrowthPercentage : Int
deriving DecidableEq, Repr

/-- The nested report shape returned by the API (IReviewsReportsEntity). -/
structure IReviewsReportsEntity where
  reviewsList : List IReviewsEntity
  reviewsIndicatorList : List IReviewsIndicatorsEntity
deriving DecidableEq, Repr

/-- Flat indicator record stored in Redux (IReviewsIndicatorsSliceEntity in
redux/slices/reviews/types/types.ts): the embedded reviews are replaced by a
list of review ids. -/
structure IReviewsIndicatorsSliceEntity where
  id : Nat
  reviewIds : List Nat
  type : ReviewsTypesEnum
  monthGrowthPercentage : Int
deriving DecidableEq, Repr

/-- Flat report record stored in Redux (IReviewsReportSliceEntity). -/
structure IReviewsReportSliceEntity where
  id : Nat
  reviewIds : List Nat
  reviewsIndicatorIds : List Nat
deriving DecidableEq, Repr

/-- Return type of the normalizer (ParsedReviewsReportData). -/
structure ParsedReviewsReportData where
  report : IReviewsReportSliceEntity
  reviews : List IReviewsEntity
  indicators : List IReviewsIndicatorsSliceEntity
deriving DecidableEq, Repr

/-- The normalizer (normalizeReviewsReportEntity in
reviewsReportTransformers.ts), translated clause by clause:
report id is the constant 0, report reviewIds maps each top-level review to
its id, reviewsIndicatorIds is `raw.reviewsIndicatorList.map((_, index) => index)`
which for a list of length n is the list 0..n-1, the reviews output is a
shallow copy of the top-level list, and each indicator at position `index`
becomes a record with id `index`, type and monthGrowthPercentage copied, and
reviewIds mapping each embedded review to its id. -/
def normalizeReviewsReportEntity (raw : IReviewsReportsEntity) :
    ParsedReviewsReportData :=
  { report :=
      { id := 0
      , reviewIds := raw.reviewsList.map (fun review => review.id)
      , reviewsIndicatorIds := List.range raw.reviewsIndicatorList.length }
  , reviews := raw.reviewsList.map (fun review => review)
  , indicators :=
      raw.reviewsIndicatorList.mapIdx (fun i indicator =>
        { id := i
        , type := indicator.type
        , monthGrowthPercentage := indicator.monthGrowthPercentage
        , reviewIds := indicator.reviewsList.map (fun review => review.id) }) }

/-- The `entities` record of an entity-adapter slice: a JavaScript object
keyed by numeric entity id.  Modelled as an association list kept strictly
sorted by key, matching the ascending numeric enumeration order of integer
keys in a JavaScript object. -/
abbrev EntitiesRecord (α : Type) := List (Nat × α)

/-- Property read `entities[k]` on the modelled JavaScript object. -/
def jsGet {α : Type} (k : Nat) : EntitiesRecord α → Option α
  | [] => none
  | (k', v) :: rest => if k' = k then some v else jsGet k rest

/-- Property write `entities[k] = v` on the modelled JavaScript object:
overwrites the value when the key exists, otherwise creates the key (inserted
at its sorted position, since integer-key enumeration is ascending). -/
def jsSet {α : Type} (k : Nat) (v : α) : EntitiesRecord α → EntitiesRecord α
  | [] => [(k, v)]
  | (k', v') :: rest =>
    if k = k' then (k, v) :: rest
    else if k < k' then (k, v) :: (k', v') :: rest
    else (k', v') :: jsSet k v rest

/-- Property deletion `delete entities[k]`. -/
def jsDelete {α : Type} (k : Nat) : EntitiesRecord α → EntitiesRecord α
  | [] => []
  | (k', v') :: rest => if k' = k then rest else (k', v') :: jsDelete k rest

/-- `Object.values(entities)`: the values in key-enumeration order. -/
def objectValues {α : Type} (s : EntitiesRecord α) : List α :=
  s.map Prod.snd

/-- The `addOne` reducer generated by createEntityAdapter: the entity is added
only when no entity with the same id is present; otherwise the state is left
unchanged (replacement is the job of `setOne`, which this code never uses). -/
def adapterAddOne {α : Type} (getId : α → Nat) (s : EntitiesRecord α) (e : α) :
    EntitiesRecord α :=
  if (jsGet (getId e) s).isSome then s else jsSet (getId e) e s

/-- The `addMany` reducer: iterated `addOne` over the given list. -/
def adapterAddMany {α : Type} (getId : α → Nat) (s : EntitiesRecord α)
    (es : List α) : EntitiesRecord α :=
  es.foldl (adapterAddOne getId) s

/-- The `removeOne` reducer: deletes the entity with the given id, a no-op
when the id is absent. -/
def adapterRemoveOne {α : Type} (s : EntitiesRecord α) (k : Nat) :
    EntitiesRecord α :=
  jsDelete k s

/-- The `removeAll` reducer: empties the collection. -/
def adapterRemoveAll {α : Type} (_ : EntitiesRecord α) : EntitiesRecord α :=
  []

/-- A `Partial<IReviewsEntity>` changes object, as passed to the `updateOne`
reducer of the reviews slice: every field optional, absent fields unchanged. -/
structure ReviewChanges where
  id : Option Nat := none
  message : Option String := none
  date : Option String := none
  toUserId : Option Nat := none
  rating : Option Int := none
  tableNumber : Option Nat := none
deriving DecidableEq, Repr

/-- Shallow merge of a changes object into a review (object spread). -/
def applyReviewChanges (c : ReviewChanges) (r : IReviewsEntity) :
    IReviewsEntity :=
  { id := c.id.getD r.id
  , message := c.message.getD r.message
  , date := c.date.getD r.date
  , toUserId := c.toUserId.getD r.toUserId
  , rating := c.rating.getD r.rating
  , tableNumber := c.tableNumber.getD r.tableNumber }

/-- The `updateOne` reducer of the reviews slice: a no-op when the id is
absent; otherwise the changes are merged into the stored entity, and when the
merge changes the id the entity is re-keyed under its new id. -/
def reviewsUpdateOne (k : Nat) (c : ReviewChanges)
    (s : EntitiesRecord IReviewsEntity) : EntitiesRecord IReviewsEntity :=
  match jsGet k s with
  | none => s
  | some v =>
    let v' := applyReviewChanges c v
    if v'.id = k then jsSet k v' s else jsSet v'.id v' (jsDelete k s)

/-- The Redux root state restricted to the three collections the selectors
read (the RootState interface in the selectors file). -/
structure RootState where
  reviews : EntitiesRecord IReviewsEntity
  reviewsIndicators : EntitiesRecord IReviewsIndicatorsSliceEntity
  reviewsReport : EntitiesRecord IReviewsReportSliceEntity
deriving DecidableEq, Repr

/-- Input selector: `state.reviews.entities`. -/
def selectReviewsEntities (s : RootState) : EntitiesRecord IReviewsEntity :=
  s.reviews

/-- Input selector: `state.reviewsIndicators.entities`. -/
def selectReviewsIndicatorsEntities (s : RootState) :
    EntitiesRecord IReviewsIndicatorsSliceEntity :=
  s.reviewsIndicators

/-- Input selector: `state.reviewsReport.entities`. -/
def selectReviewsReportEntities (s : RootState) :
    EntitiesRecord IReviewsReportSliceEntity :=
  s.reviewsReport

/-- Selector 1, selectDenormalizedReviews:
`Object.values(reviewsEntities).filter(review => review !== undefined)`.
In this total model no stored value is undefined, so the defensive filter is
the identity and the selector is the value enumeration of the collection. -/
def selectDenormalizedReviews (s : RootState) : List IReviewsEntity :=
  objectValues (selectReviewsEntities s)

/-- `Array.prototype.find` applied with the predicate
`(_, index) => index === id`: returns the element at position `i`, or nothing
when the array is shorter.  Used by selector 3 for the indicator join. -/
def findAtIndex {α : Type} (l : List α) (i : Nat) : Option α :=
  l.get? i

/-- Selector 2, selectDenormalizedReviewsIndicators: for every stored
indicator record, keep type and monthGrowthPercentage and replace reviewIds by
`reviewIds.map(id => denormalizedReviews.find(review => review.id === id)).filter(Boolean)`.
`List.reduceOption` is `filter(Boolean)` after a map producing options. -/
def selectDenormalizedReviewsIndicators (s : RootState) :
    List IReviewsIndicatorsEntity :=
  (objectValues (selectReviewsIndicatorsEntities s)).map (fun indicator =>
    { type := indicator.type
    , monthGrowthPercentage := indicator.monthGrowthPercentage
    , reviewsList :=
        (indicator.reviewIds.map (fun i =>
          (selectDenormalizedReviews s).find? (fun review => review.id == i))).reduceOption })

/-- Selector 3, selectDenormalizedReviewsReports: for every stored report
record, replace reviewIds by the joined review objects (same lenient join as
selector 2) and reviewsIndicatorIds by
`reviewsIndicatorIds.map(id => denormalizedIndicators.find((_, index) => index === id)).filter(Boolean)`,
a positional lookup in the indicators view. -/
def selectDenormalizedReviewsReports (s : RootState) :
    List IReviewsReportsEntity :=
  (objectValues (selectReviewsReportEntities s)).map (fun report =>
    { reviewsList :=
        (report.reviewIds.map (fun i =>
          (selectDenormalizedReviews s).find? (fun review => review.id == i))).reduceOption
    , reviewsIndicatorList :=
        (report.reviewsIndicatorIds.map (fun i =>
          findAtIndex (selectDenormalizedReviewsIndicators s) i)).reduceOption })

/-- The id accessor used by all three adapters (`selectId: e => e.id`). -/
def reviewId (r : IReviewsEntity) : Nat := r.id

/-- The id accessor of the indicators adapter. -/
def indicatorId (r : IReviewsIndicatorsSliceEntity) : Nat := r.id

/-- The id accessor of the report adapter. -/
def reportId (r : IReviewsReportSliceEntity) : Nat := r.id

/-- The initial state of every adapter: `{ ids: [], entities: {} }`. -/
def emptyRootState : RootState :=
  { reviews := [], reviewsIndicators := [], reviewsReport := [] }

/-- The commit sequence performed by RgetAllReviews in
useReviewsRepository.ts after normalizing a fetched report:
`dispatch(addReviews(reviews)); dispatch(addReviewsIndicators(indicators));
dispatch(addReviewReport(report))`. -/
def commitNormalizedReport (raw : IReviewsReportsEntity) (s : RootState) :
    RootState :=
  let parsed := normalizeReviewsReportEntity raw
  { reviews := adapterAddMany reviewId s.reviews parsed.reviews
  , reviewsIndicators :=
      adapterAddMany indicatorId s.reviewsIndicators parsed.indicators
  , reviewsReport := adapterAddOne reportId s.reviewsReport parsed.report }

/-- Well-formedness of a modelled entities record: keys strictly ascending
(the sorted representation of a JavaScript object with integer keys) and every
stored entity keyed by its own id (guaranteed by the adapter reducers). -/
def EntitiesWF {α : Type} (getId : α → Nat) (s : EntitiesRecord α) : Prop :=
  List.Pairwise (fun p q => p.1 < q.1) s ∧ ∀ p ∈ s, getId p.2 = p.1

instance {α : Type} (getId : α → Nat) (s : EntitiesRecord α) :
    Decidable (EntitiesWF getId s) := by
  unfold EntitiesWF
  infer_instance

/-- The state transition performed when the app dispatches
`updateReview(\x7b id, changes: \x7b message \x7d \x7d)`: only the reviews
collection is touched. -/
def updateReviewMessage (k : Nat) (m : String) (s : RootState) : RootState :=
  { s with reviews := reviewsUpdateOne k { message := some m } s.reviews }

/-- Total number of embedded review objects across the indicators of a nested
report: the N of the no-duplication claim, read off the claim text. -/
def totalEmbeddedReviews (raw : IReviewsReportsEntity) : Nat :=
  (raw.reviewsIndicatorList.map (fun ind => ind.reviewsList.length)).sum

/-- Number of distinct review ids embedded across the indicators of a nested
report: the M of the no-duplication claim, read off the claim text. -/
def distinctEmbeddedReviewIds (raw : IReviewsReportsEntity) : Nat :=
  ((raw.reviewsIndicatorList.bind (fun ind => ind.reviewsList)).map
    (fun r => r.id)).dedup.length

/-- Sample review with id 1 (the concrete scenario of the spec). -/
def sampleReview1 : IReviewsEntity :=
  { id := 1, message := "Super", date := "2024-01-15T10:30:00Z"
  , toUserId := 10, rating := 5, tableNumber := 3 }

/-- Sample review with id 2 (the concrete scenario of the spec). -/
def sampleReview2 : IReviewsEntity :=
  { id := 2, message := "Bien", date := "2024-01-16T09:00:00Z"
  , toUserId := 10, rating := 4, tableNumber := 4 }

/-- A second review carrying the already-used id 1 but different content. -/
def sampleReview1b : IReviewsEntity :=
  { id := 1, message := "Autre", date := "2024-01-17T12:00:00Z"
  , toUserId := 11, rating := 2, tableNumber := 5 }

/-- The concrete nested report of the spec: two reviews, an EXCELLENT
indicator holding review 1 and a BON indicator holding review 2. -/
def sampleReport : IReviewsReportsEntity :=
  { reviewsList := [sampleReview1, sampleReview2]
  , reviewsIndicatorList :=
      [ { reviewsList := [sampleReview1], type := ReviewsTypesEnum.EXCELLENT
        , monthGrowthPercentage := 15 }
      , { reviewsList := [sampleReview2], type := ReviewsTypesEnum.BON
        , monthGrowthPercentage := 8 } ] }

/-- A nested report whose top-level list carries two entries with the same id
but different fields, and no indicator. -/
def dupIdReport : IReviewsReportsEntity :=
  { reviewsList := [sampleReview1, sampleReview1b], reviewsIndicatorList := [] }

/-- A nested report with two top-level reviews and no indicator, so no
embedded review at all. -/
def topOnlyReport : IReviewsReportsEntity :=
  { reviewsList := [sampleReview1, sampleReview2], reviewsIndicatorList := [] }

/-- A store state with dangling references: the indicator record and the
report record both reference review id 99 (absent) and the report references
indicator position 7 (out of range). -/
def danglingState : RootState :=
  { reviews := [(1, sampleReview1)]
  , reviewsIndicators :=
      [(0, { id := 0, reviewIds := [1, 99], type := ReviewsTypesEnum.EXCELLENT
           , monthGrowthPercentage := 15 })]
  , reviewsReport :=
      [(0, { id := 0, reviewIds := [1, 99], reviewsIndicatorIds := [0, 7] })] }

/-- The dangling-reference state with the report collection cleared; it agrees
with danglingState on the reviews and indicators collections. -/
def reportlessState : RootState :=
  { reviews := danglingState.reviews
  , reviewsIndicators := danglingState.reviewsIndicators
  , reviewsReport := [] }

/-- A store state whose only indicator record is stored under key 7 and
carries id field 7, while the report record references indicator id 0: the
positional join still selects it as element 0 of the Indicators view. -/
def positionalState : RootState :=
  { reviews := []
  , reviewsIndicators :=
      [(7, { id := 7, reviewIds := [], type := ReviewsTypesEnum.BON
           , monthGrowthPercentage := 77 })]
  , reviewsReport :=
      [(0, { id := 0, reviewIds := [], reviewsIndicatorIds := [0] })] }

/-- Flat indicator record with id 0 (EXCELLENT, referencing review 1). -/
def sampleIndicatorRecord0 : IReviewsIndicatorsSliceEntity :=
  { id := 0, reviewIds := [1], type := ReviewsTypesEnum.EXCELLENT
  , monthGrowthPercentage := 15 }

/-- Flat indicator record with id 1 (BON, referencing review 2). -/
def sampleIndicatorRecord1 : IReviewsIndicatorsSliceEntity :=
  { id := 1, reviewIds := [2], type := ReviewsTypesEnum.BON
  , monthGrowthPercentage := 8 }

/-- Flat report record referencing reviews 1 and 2 and indicators 0 and 1. -/
def sampleReportRecord : IReviewsReportSliceEntity :=
  { id := 0, reviewIds := [1, 2], reviewsIndicatorIds := [0, 1] }

/-- Membership in the result of a property write: every entry is either the
written pair or an entry of the original record. -/
theorem mem_jsSet {α : Type} {k : Nat} {v : α} :
    ∀ {s : EntitiesRecord α} {p : Nat × α}, p ∈ jsSet k v s → p = (k, v) ∨ p ∈ s := by
  intro s
  induction s with
  | nil => intro p hp; simp [jsSet] at hp; exact Or.inl hp
  | cons hd tl ih =>
    intro p hp
    unfold jsSet at hp
    by_cases h1 : k = hd.1
    · simp [h1] at hp
      rcases hp with h | h
      · exact Or.inl (by simp [h, h1])
      · exact Or.inr (List.mem_cons_of_mem _ h)
    · simp [h1] at hp
      by_cases h2 : k < hd.1
      · simp [h2] at hp
        rcases hp with h | h | h
        · exact Or.inl (by simp [h])
        · exact Or.inr (by simp [h])
        · exact Or.inr (List.mem_cons_of_mem _ h)
      · simp [h2] at hp
        rcases hp with h | h
        · exact Or.inr (by simp [h])
        · rcases ih h with h' | h'
          · exact Or.inl h'
          · exact Or.inr (List.mem_cons_of_mem _ h')

/-- A property write preserves the strictly-ascending key ordering. -/
theorem pairwise_jsSet {α : Type} (k : Nat) (v : α) :
    ∀ {s : EntitiesRecord α}, List.Pairwise (fun p q => p.1 < q.1) s →
      List.Pairwise (fun p q => p.1 < q.1) (jsSet k v s) := by
  intro s
  induction s with
  | nil => intro _; simp [jsSet]
  | cons hd tl ih =>
    intro h
    rcases List.pairwise_cons.mp h with ⟨hhd, htl⟩
    unfold jsSet
    by_cases h1 : k = hd.1
    · simp only [h1, if_pos rfl]
      exact List.pairwise_cons.mpr ⟨fun q hq => hhd q hq, htl⟩
    · simp only [if_neg h1]
      by_cases h2 : k < hd.1
      · simp only [if_pos h2]
        refine List.pairwise_cons.mpr ⟨?_, h⟩
        intro q hq
        rcases List.mem_cons.mp hq with h' | h'
        · simpa [h'] using h2
        · exact lt_trans h2 (hhd q h')
      · simp only [if_neg h2]
        refine List.pairwise_cons.mpr ⟨?_, ih htl⟩
        intro q hq
        rcases mem_jsSet hq with h' | h'
        · have : hd.1 < k := by omega
          simpa [h'] using this
        · exact hhd q h'

/-- Reading back after a property write. -/
theorem jsGet_jsSet {α : Type} (k k' : Nat) (v : α) :
    ∀ (s : EntitiesRecord α),
      jsGet k (jsSet k' v s) = if k' = k then some v else jsGet k s := by
  intro s
  induction s with
  | nil => by_cases h : k' = k <;> simp [jsSet, jsGet, h]
  | cons hd tl ih =>
    obtain ⟨a, b⟩ := hd
    simp only [jsSet]
    by_cases h1 : k' = a
    · subst h1
      by_cases h2 : k' = k <;> simp [jsGet, h2]
    · simp only [if_neg h1]
      by_cases h2 : k' < a
      · simp only [if_pos h2]
        simp [jsGet]
      · simp only [if_neg h2]
        by_cases h4 : a = k
        · have h3 : ¬ k' = k := by omega
          simp [jsGet, h4, h3]
        · simp [jsGet, h4, ih]

/-- Membership after a property deletion. -/
theorem mem_jsDelete {α : Type} {k : Nat} :
    ∀ {s : EntitiesRecord α} {p : Nat × α}, p ∈ jsDelete k s → p ∈ s := by
  intro s
  induction s with
  | nil => intro p hp; simp [jsDelete] at hp
  | cons hd tl ih =>
    intro p hp
    unfold jsDelete at hp
    by_cases h1 : hd.1 = k
    · simp [h1] at hp; exact List.mem_cons_of_mem _ hp
    · simp [h1] at hp
      rcases hp with h | h
      · simp [h]
      · exact List.mem_cons_of_mem _ (ih h)

/-- A property deletion preserves the strictly-ascending key ordering. -/
theorem pairwise_jsDelete {α : Type} (k : Nat) :
    ∀ {s : EntitiesRecord α}, List.Pairwise (fun p q => p.1 < q.1) s →
      List.Pairwise (fun p q => p.1 < q.1) (jsDelete k s) := by
  intro s
  induction s with
  | nil => intro _; simp [jsDelete]
  | cons hd tl ih =>
    intro h
    rcases List.pairwise_cons.mp h with ⟨hhd, htl⟩
    unfold jsDelete
    by_cases h1 : hd.1 = k
    · simpa [h1] using htl
    · simp only [if_neg h1]
      exact List.pairwise_cons.mpr
        ⟨fun q hq => hhd q (mem_jsDelete hq), ih htl⟩

/-- Reading a different key after a property deletion. -/
theorem jsGet_jsDelete_ne {α : Type} {k k' : Nat} (hne : k ≠ k') :
    ∀ (s : EntitiesRecord α), jsGet k (jsDelete k' s) = jsGet k s := by
  intro s
  induction s with
  | nil => simp [jsDelete]
  | cons hd tl ih =>
    obtain ⟨a, b⟩ := hd
    simp only [jsDelete]
    by_cases h1 : a = k'
    · subst h1
      have h2 : ¬ a = k := fun h => hne (h.symm.trans rfl)
      simp [jsGet, h2]
    · simp only [if_neg h1]
      by_cases h2 : a = k <;> simp [jsGet, h2, ih]

/-- A key none of the entries carries reads as absent. -/
theorem jsGet_eq_none {α : Type} {k : Nat} :
    ∀ {s : EntitiesRecord α}, (∀ p ∈ s, p.1 ≠ k) → jsGet k s = none := by
  intro s
  induction s with
  | nil => intro _; simp [jsGet]
  | cons hd tl ih =>
    intro h
    have hhd : hd.1 ≠ k := h hd (List.mem_cons_self _ _)
    simp [jsGet, hhd]
    exact ih (fun p hp => h p (List.mem_cons_of_mem _ hp))

/-- Well-formedness is preserved by the addOne reducer. -/
theorem wf_adapterAddOne {α : Type} {getId : α → Nat} {s : EntitiesRecord α}
    (hwf : EntitiesWF getId s) (e : α) :
    EntitiesWF getId (adapterAddOne getId s e) := by
  unfold adapterAddOne
  by_cases h : (jsGet (getId e) s).isSome
  · simpa [h] using hwf
  · simp only [h, if_false]
    refine ⟨pairwise_jsSet _ _ hwf.1, ?_⟩
    intro p hp
    rcases mem_jsSet hp with h' | h'
    · simp [h']
    · exact hwf.2 p h'

/-- Well-formedness is preserved by the addMany reducer. -/
theorem wf_adapterAddMany {α : Type} {getId : α → Nat} (es : List α) :
    ∀ {s : EntitiesRecord α}, EntitiesWF getId s →
      EntitiesWF getId (adapterAddMany getId s es) := by
  induction es with
  | nil => intro s hwf; simpa [adapterAddMany] using hwf
  | cons e tl ih =>
    intro s hwf
    have : adapterAddMany getId s (e :: tl)
        = adapterAddMany getId (adapterAddOne getId s e) tl := by
      simp [adapterAddMany]
    rw [this]
    exact ih (wf_adapterAddOne hwf e)

/-- The empty collection is well formed. -/
theorem wf_empty {α : Type} (getId : α → Nat) :
    EntitiesWF getId ([] : EntitiesRecord α) := by
  constructor
  · simp
  · intro p hp; simp at hp

/-- A present entity survives an addOne of any entity. -/
theorem jsGet_adapterAddOne_of_some {α : Type} {getId : α → Nat} {k : Nat}
    {s : EntitiesRecord α} {v : α} (hk : jsGet k s = some v) (e : α) :
    jsGet k (adapterAddOne getId s e) = some v := by
  unfold adapterAddOne
  by_cases h : (jsGet (getId e) s).isSome
  · simpa [h] using hk
  · rw [if_neg h, jsGet_jsSet]
    by_cases hg : getId e = k
    · rw [hg] at h; simp [hk] at h
    · simp [hg, hk]

/-- Looking up an absent key after an addOne: the added entity is found
exactly when it carries that id. -/
theorem jsGet_adapterAddOne_of_none {α : Type} {getId : α → Nat} {k : Nat}
    {s : EntitiesRecord α} (hk : jsGet k s = none) (e : α) :
    jsGet k (adapterAddOne getId s e)
      = if getId e = k then some e else none := by
  unfold adapterAddOne
  by_cases h : (jsGet (getId e) s).isSome
  · have hg : ¬ getId e = k := by
      intro hc; rw [hc] at h; simp [hk] at h
    simp [h, hg, hk]
  · rw [if_neg h, jsGet_jsSet]
    by_cases hg : getId e = k <;> simp [hg, hk]

/-- A present entity survives an addMany of any list. -/
theorem jsGet_adapterAddMany_of_some {α : Type} {getId : α → Nat} {k : Nat}
    (es : List α) :
    ∀ {s : EntitiesRecord α} {v : α}, jsGet k s = some v →
      jsGet k (adapterAddMany getId s es) = some v := by
  induction es with
  | nil => intro s v hk; simpa [adapterAddMany] using hk
  | cons e tl ih =>
    intro s v hk
    have : adapterAddMany getId s (e :: tl)
        = adapterAddMany getId (adapterAddOne getId s e) tl := by
      simp [adapterAddMany]
    rw [this]
    exact ih (jsGet_adapterAddOne_of_some hk e)

/-- Looking up an absent key after an addMany: the first listed entity with
that id wins (later duplicates are ignored by addOne). -/
theorem jsGet_adapterAddMany_of_none {α : Type} {getId : α → Nat} {k : Nat}
    (es : List α) :
    ∀ {s : EntitiesRecord α}, jsGet k s = none →
      jsGet k (adapterAddMany getId s es)
        = es.find? (fun e => getId e == k) := by
  induction es with
  | nil => intro s hk; simpa [adapterAddMany] using hk
  | cons e tl ih =>
    intro s hk
    have hstep : adapterAddMany getId s (e :: tl)
        = adapterAddMany getId (adapterAddOne getId s e) tl := by
      simp [adapterAddMany]
    rw [hstep]
    by_cases hg : getId e = k
    · have h1 : jsGet k (adapterAddOne getId s e) = some e := by
        rw [jsGet_adapterAddOne_of_none hk e]; simp [hg]
      rw [jsGet_adapterAddMany_of_some tl h1]
      rw [List.find?_cons_of_pos]
      simp [hg]
    · have h1 : jsGet k (adapterAddOne getId s e) = none := by
        rw [jsGet_adapterAddOne_of_none hk e]; simp [hg]
      rw [ih h1, List.find?_cons_of_neg]
      simp [hg]

/-- Lookup in a collection built by addMany from the empty state: the first
listed entity with the requested id. -/
theorem jsGet_adapterAddMany_empty {α : Type} (getId : α → Nat) (k : Nat)
    (es : List α) :
    jsGet k (adapterAddMany getId ([] : EntitiesRecord α) es)
      = es.find? (fun e => getId e == k) :=
  jsGet_adapterAddMany_of_none es (by simp [jsGet])

/-- On a well-formed collection, the linear search that the selectors perform
over `Object.values` agrees with the keyed lookup. -/
theorem find?_objectValues {α : Type} {getId : α → Nat} (k : Nat) :
    ∀ {s : EntitiesRecord α}, EntitiesWF getId s →
      (objectValues s).find? (fun v => getId v == k) = jsGet k s := by
  intro s
  induction s with
  | nil => intro _; simp [objectValues, jsGet]
  | cons hd tl ih =>
    intro hwf
    obtain ⟨a, b⟩ := hd
    have hid : getId b = a := hwf.2 (a, b) (List.mem_cons_self _ _)
    have htlwf : EntitiesWF getId tl :=
      ⟨(List.pairwise_cons.mp hwf.1).2,
       fun p hp => hwf.2 p (List.mem_cons_of_mem _ hp)⟩
    simp only [objectValues, List.map_cons, jsGet]
    by_cases h : a = k
    · rw [List.find?_cons_of_pos]
      · simp [h]
      · simp [hid, h]
    · rw [List.find?_cons_of_neg]
      · rw [if_neg h]; exact ih htlwf
      · simp [hid, h]

/-- Writing a key larger than every present key appends the entry. -/
theorem jsSet_append {α : Type} {k : Nat} (v : α) :
    ∀ {s : EntitiesRecord α}, (∀ p ∈ s, p.1 < k) →
      jsSet k v s = s ++ [(k, v)] := by
  intro s
  induction s with
  | nil => intro _; simp [jsSet]
  | cons hd tl ih =>
    intro h
    obtain ⟨a, b⟩ := hd
    have ha : a < k := h (a, b) (List.mem_cons_self _ _)
    have h1 : ¬ k = a := by omega
    have h2 : ¬ k < a := by omega
    simp only [jsSet, if_neg h1, if_neg h2, List.cons_append]
    rw [ih (fun p hp => h p (List.mem_cons_of_mem _ hp))]

/-- addMany of a list whose ids are strictly ascending and larger than every
present key appends the corresponding entries in order. -/
theorem adapterAddMany_ascending {α : Type} {getId : α → Nat} :
    ∀ (es : List α) (s : EntitiesRecord α),
      (∀ p ∈ s, ∀ e ∈ es, p.1 < getId e) →
      List.Pairwise (fun d e => getId d < getId e) es →
      adapterAddMany getId s es = s ++ es.map (fun e => (getId e, e)) := by
  intro es
  induction es with
  | nil => intro s _ _; simp [adapterAddMany]
  | cons e tl ih =>
    intro s hlt hpw
    have hstep : adapterAddMany getId s (e :: tl)
        = adapterAddMany getId (adapterAddOne getId s e) tl := by
      simp [adapterAddMany]
    have hnone : jsGet (getId e) s = none := by
      apply jsGet_eq_none
      intro p hp
      have := hlt p hp e (List.mem_cons_self _ _)
      omega
    have hadd : adapterAddOne getId s e = s ++ [(getId e, e)] := by
      unfold adapterAddOne
      rw [hnone]
      simp only [Option.isSome_none, Bool.false_eq_true, if_false]
      exact jsSet_append e (fun p hp => hlt p hp e (List.mem_cons_self _ _))
    rw [hstep, hadd, ih (s ++ [(getId e, e)])]
    · simp
    · intro p hp e' he'
      rcases List.mem_append.mp hp with h | h
      · exact hlt p h e' (List.mem_cons_of_mem _ he')
      · simp at h
        have := (List.pairwise_cons.mp hpw).1 e' he'
        simp [h]
        omega
    · exact (List.pairwise_cons.mp hpw).2

/-- Mapping with the index, read positionally. -/
theorem mapIdx_get? {α β : Type} (f : Nat → α → β) (l : List α) (i : Nat) :
    (l.mapIdx f).get? i = (l.get? i).map (f i) := by
  by_cases h : i < l.length
  · have h' : i < (l.mapIdx f).length := by
      rw [List.length_mapIdx]; exact h
    rw [List.get?_eq_get h, List.get?_eq_get h', List.get_mapIdx l f i h]
    simp
  · have h1 : l.length ≤ i := by omega
    have h2 : (l.mapIdx f).length ≤ i := by rw [List.length_mapIdx]; omega
    rw [List.get?_eq_none.mpr h1, List.get?_eq_none.mpr h2]
    simp

/-- filter(Boolean) after mapping to options is an option-valued filterMap. -/
theorem reduceOption_map_eq_filterMap {α β : Type} (f : α → Option β)
    (l : List α) : (l.map f).reduceOption = l.filterMap f := by
  simp [List.reduceOption, List.filterMap_map]

/-- Unfolding lemma for the reviews adapter id accessor. -/
theorem reviewId_eq (r : IReviewsEntity) : reviewId r = r.id := rfl

/-- Unfolding lemma for the indicators adapter id accessor. -/
theorem indicatorId_eq (r : IReviewsIndicatorsSliceEntity) :
    indicatorId r = r.id := rfl

/-- Unfolding lemma for the report adapter id accessor. -/
theorem reportId_eq (r : IReviewsReportSliceEntity) : reportId r = r.id := rfl

/-- The normalizer copies the top-level review list unchanged. -/
theorem normalize_reviews_eq (raw : IReviewsReportsEntity) :
    (normalizeReviewsReportEntity raw).reviews = raw.reviewsList := by
  simp [normalizeReviewsReportEntity]

/-- The flat indicator records produced by the normalizer, position by
position. -/
theorem normalize_indicators_get? (raw : IReviewsReportsEntity) (i : Nat) :
    (normalizeReviewsReportEntity raw).indicators.get? i
      = (raw.reviewsIndicatorList.get? i).map (fun indicator =>
          { id := i
          , type := indicator.type
          , monthGrowthPercentage := indicator.monthGrowthPercentage
          , reviewIds := indicator.reviewsList.map (fun review => review.id) }) := by
  simp only [normalizeReviewsReportEntity]
  exact mapIdx_get? _ _ i

/-- The ids of the flat indicator records are exactly their positions. -/
theorem normalize_indicator_ids (raw : IReviewsReportsEntity) :
    (normalizeReviewsReportEntity raw).indicators.map indicatorId
      = List.range raw.reviewsIndicatorList.length := by
  apply List.ext
  intro n
  rw [List.get?_map, normalize_indicators_get?]
  by_cases h : n < raw.reviewsIndicatorList.length
  · rw [List.get?_range h, List.get?_eq_get h]
    simp [indicatorId]
  · have h1 : raw.reviewsIndicatorList.length ≤ n := by omega
    have h2 : (List.range raw.reviewsIndicatorList.length).length ≤ n := by
      simpa using h1
    rw [List.get?_eq_none.mpr h1, List.get?_eq_none.mpr h2]
    simp

/-- The ids of the flat indicator records are their positions, hence strictly
ascending. -/
theorem normalize_indicators_pairwise (raw : IReviewsReportsEntity) :
    List.Pairwise (fun d e => indicatorId d < indicatorId e)
      (normalizeReviewsReportEntity raw).indicators := by
  have h := normalize_indicator_ids raw
  have h2 : List.Pairwise (· < ·)
      ((normalizeReviewsReportEntity raw).indicators.map indicatorId) := by
    rw [h]
    exact List.pairwise_lt_range _
  exact List.pairwise_map.mp h2

/-- After a commit into the empty store, the indicator collection lists the
flat indicator records keyed by their ids, in order. -/
theorem commit_indicators_eq (raw : IReviewsReportsEntity) :
    (commitNormalizedReport raw emptyRootState).reviewsIndicators
      = (normalizeReviewsReportEntity raw).indicators.map
          (fun e => (indicatorId e, e)) := by
  have h := @adapterAddMany_ascending _ indicatorId
    (normalizeReviewsReportEntity raw).indicators []
    (by intro p hp; simp at hp) (normalize_indicators_pairwise raw)
  simpa [commitNormalizedReport, emptyRootState] using h

/-- After a commit into the empty store, the report collection holds exactly
the flat report record under key 0. -/
theorem commit_report_eq (raw : IReviewsReportsEntity) :
    (commitNormalizedReport raw emptyRootState).reviewsReport
      = [(0, (normalizeReviewsReportEntity raw).report)] := by
  simp [commitNormalizedReport, emptyRootState, adapterAddOne, jsGet, jsSet,
    reportId, normalizeReviewsReportEntity]

/-- After a commit into the empty store, a review id reads back as the first
top-level review carrying it. -/
theorem commit_reviews_jsGet (raw : IReviewsReportsEntity) (k : Nat) :
    jsGet k (commitNormalizedReport raw emptyRootState).reviews
      = raw.reviewsList.find? (fun e => e.id == k) := by
  have h := jsGet_adapterAddMany_empty reviewId k
    (normalizeReviewsReportEntity raw).reviews
  rw [normalize_reviews_eq] at h
  simp only [reviewId] at h
  simpa [commitNormalizedReport, emptyRootState, normalize_reviews_eq] using h

/-- The committed review collection is well formed. -/
theorem commit_reviews_wf (raw : IReviewsReportsEntity) :
    EntitiesWF reviewId (commitNormalizedReport raw emptyRootState).reviews := by
  simp only [commitNormalizedReport, emptyRootState]
  exact wf_adapterAddMany _ (wf_empty reviewId)

/-- Positional filterMap of the full index range of a list returns the list. -/
theorem filterMap_range_get? {α : Type} :
    ∀ (l : List α), (List.range l.length).filterMap (fun i => l.get? i) = l := by
  intro l
  induction l with
  | nil => simp
  | cons a tl ih =>
    have h1 : (a :: tl).length = tl.length + 1 := rfl
    rw [h1, List.range_succ_eq_map]
    rw [List.filterMap_cons]
    simp only [List.get?]
    rw [List.filterMap_map]
    have h2 : ((fun i => (a :: tl).get? i) ∘ Nat.succ) = fun i => tl.get? i := by
      funext i
      simp [List.get?]
    rw [h2, ih]

/-- A filterMap whose function restores every element is the identity. -/
theorem filterMap_eq_self_of_mem {α : Type} {f : α → Option α} :
    ∀ {l : List α}, (∀ a ∈ l, f a = some a) → l.filterMap f = l := by
  intro l
  induction l with
  | nil => intro _; simp
  | cons a tl ih =>
    intro h
    rw [List.filterMap_cons, h a (List.mem_cons_self _ _)]
    rw [ih (fun b hb => h b (List.mem_cons_of_mem _ hb))]

/-- In the store committed from a report whose top-level review list is
determined by ids, the selector-side linear search restores each top-level
review from its id. -/
theorem commit_reviews_find (raw : IReviewsReportsEntity)
    (huniq : ∀ a ∈ raw.reviewsList, ∀ b ∈ raw.reviewsList, a.id = b.id → a = b)
    (r : IReviewsEntity) (hr : r ∈ raw.reviewsList) :
    (selectDenormalizedReviews (commitNormalizedReport raw emptyRootState)).find?
        (fun review => review.id == r.id) = some r := by
  have hwf := commit_reviews_wf raw
  have h1 := find?_objectValues r.id hwf
  simp only [reviewId] at h1
  rw [selectDenormalizedReviews, selectReviewsEntities, h1,
    commit_reviews_jsGet]
  cases hfind : raw.reviewsList.find? (fun e => e.id == r.id) with
  | none =>
    exfalso
    have := List.find?_eq_none.mp hfind r hr
    simp at this
  | some e =>
    have hpred := List.find?_some hfind
    have hmem := List.mem_of_find?_eq_some hfind
    have heq : e.id = r.id := by simpa using hpred
    rw [huniq e hmem r hr heq]

/-- Joining back the ids of a sublist of the committed top-level review list
restores that sublist. -/
theorem commit_join_restores (raw : IReviewsReportsEntity)
    (huniq : ∀ a ∈ raw.reviewsList, ∀ b ∈ raw.reviewsList, a.id = b.id → a = b)
    (rs : List IReviewsEntity) (hsub : ∀ r ∈ rs, r ∈ raw.reviewsList) :
    ((rs.map (fun review => review.id)).map (fun i =>
        (selectDenormalizedReviews (commitNormalizedReport raw emptyRootState)).find?
          (fun review => review.id == i))).reduceOption = rs := by
  rw [reduceOption_map_eq_filterMap, List.filterMap_map]
  apply filterMap_eq_self_of_mem
  intro r hr
  simp only [Function.comp]
  exact commit_reviews_find raw huniq r (hsub r hr)

/-- The Indicators view of the store committed from an internally consistent
report restores the original nested indicator list. -/
theorem commit_indicators_view (raw : IReviewsReportsEntity)
    (huniq : ∀ a ∈ raw.reviewsList, ∀ b ∈ raw.reviewsList, a.id = b.id → a = b)
    (hcons : ∀ ind ∈ raw.reviewsIndicatorList, ∀ r ∈ ind.reviewsList,
      r ∈ raw.reviewsList) :
    selectDenormalizedReviewsIndicators (commitNormalizedReport raw emptyRootState)
      = raw.reviewsIndicatorList := by
  have hvals : objectValues
      (selectReviewsIndicatorsEntities (commitNormalizedReport raw emptyRootState))
      = (normalizeReviewsReportEntity raw).indicators := by
    rw [selectReviewsIndicatorsEntities, commit_indicators_eq]
    simp only [objectValues, List.map_map]
    exact List.map_id' _
  rw [selectDenormalizedReviewsIndicators, hvals]
  have hidc : (normalizeReviewsReportEntity raw).indicators
      = raw.reviewsIndicatorList.mapIdx (fun i indicator =>
          { id := i
          , type := indicator.type
          , monthGrowthPercentage := indicator.monthGrowthPercentage
          , reviewIds := indicator.reviewsList.map (fun review => review.id) }) := rfl
  rw [hidc, List.mapIdx_eq_ofFn, List.map_ofFn]
  conv_rhs => rw [← List.ofFn_get raw.reviewsIndicatorList]
  congr 1
  funext i
  simp only [Function.comp]
  have hjoin := commit_join_restores raw huniq
    (raw.reviewsIndicatorList.get i).reviewsList
    (fun r hr => hcons _ (raw.reviewsIndicatorList.get_mem i.1 i.2) r hr)
  simp only [selectDenormalizedReviews, selectReviewsEntities] at hjoin ⊢
  rw [hjoin]

/-- The Report view of the store committed from an internally consistent
report restores the original nested report, as the sole element. -/
theorem commit_reports_view (raw : IReviewsReportsEntity)
    (huniq : ∀ a ∈ raw.reviewsList, ∀ b ∈ raw.reviewsList, a.id = b.id → a = b)
    (hcons : ∀ ind ∈ raw.reviewsIndicatorList, ∀ r ∈ ind.reviewsList,
      r ∈ raw.reviewsList) :
    selectDenormalizedReviewsReports (commitNormalizedReport raw emptyRootState)
      = [raw] := by
  have hrep : objectValues
      (selectReviewsReportEntities (commitNormalizedReport raw emptyRootState))
      = [(normalizeReviewsReportEntity raw).report] := by
    rw [selectReviewsReportEntities, commit_report_eq]
    rfl
  rw [selectDenormalizedReviewsReports, hrep, List.map_cons, List.map_nil]
  have hids : (normalizeReviewsReportEntity raw).report.reviewIds
      = raw.reviewsList.map (fun review => review.id) := rfl
  have hiids : (normalizeReviewsReportEntity raw).report.reviewsIndicatorIds
      = List.range raw.reviewsIndicatorList.length := rfl
  rw [hids, hiids]
  have hjoin := commit_join_restores raw huniq raw.reviewsList (fun r hr => hr)
  simp only [selectDenormalizedReviews, selectReviewsEntities] at hjoin ⊢
  rw [hjoin]
  have hindview := commit_indicators_view raw huniq hcons
  simp only [selectDenormalizedReviewsIndicators, selectReviewsIndicatorsEntities]
    at hindview ⊢
  rw [hindview]
  have hlen : raw.reviewsIndicatorList.length
      = (raw.reviewsIndicatorList : List IReviewsIndicatorsEntity).length := rfl
  have hrange : ((List.range raw.reviewsIndicatorList.length).map (fun i =>
      findAtIndex raw.reviewsIndicatorList i)).reduceOption
      = raw.reviewsIndicatorList := by
    rw [reduceOption_map_eq_filterMap]
    have : (fun i => findAtIndex raw.reviewsIndicatorList i)
        = fun i => raw.reviewsIndicatorList.get? i := rfl
    rw [this, filterMap_range_get?]
  rw [hrange]

/-- A key that reads back is among the stored keys. -/
theorem mem_keys_of_jsGet_isSome {α : Type} {k : Nat} :
    ∀ {s : EntitiesRecord α}, (jsGet k s).isSome → k ∈ s.map Prod.fst := by
  intro s
  induction s with
  | nil => intro h; simp [jsGet] at h
  | cons hd tl ih =>
    intro h
    obtain ⟨a, b⟩ := hd
    by_cases h1 : a = k
    · simp [h1]
    · simp only [jsGet, if_neg h1] at h
      simp [ih h]

/-- Key set after a property write. -/
theorem keys_jsSet_toFinset {α : Type} (k : Nat) (v : α) :
    ∀ (s : EntitiesRecord α),
      ((jsSet k v s).map Prod.fst).toFinset
        = insert k (s.map Prod.fst).toFinset := by
  intro s
  induction s with
  | nil => simp [jsSet]
  | cons hd tl ih =>
    obtain ⟨a, b⟩ := hd
    simp only [jsSet]
    by_cases h1 : k = a
    · subst h1
      simp [Finset.insert_idem]
    · simp only [if_neg h1]
      by_cases h2 : k < a
      · simp [if_pos h2]
      · simp only [if_neg h2, List.map_cons, List.toFinset_cons, ih]
        rw [Finset.Insert.comm]

/-- Key set after an addOne: the entity id joins the key set (idempotently
when already present). -/
theorem keys_adapterAddOne_toFinset {α : Type} (getId : α → Nat)
    (s : EntitiesRecord α) (e : α) :
    ((adapterAddOne getId s e).map Prod.fst).toFinset
      = insert (getId e) (s.map Prod.fst).toFinset := by
  unfold adapterAddOne
  by_cases h : (jsGet (getId e) s).isSome
  · rw [if_pos h]
    exact (Finset.insert_eq_self.mpr
      (List.mem_toFinset.mpr (mem_keys_of_jsGet_isSome h))).symm
  · rw [if_neg h]
    exact keys_jsSet_toFinset (getId e) e s

/-- Key set after an addMany: union with the listed ids. -/
theorem keys_adapterAddMany_toFinset {α : Type} (getId : α → Nat) :
    ∀ (es : List α) (s : EntitiesRecord α),
      ((adapterAddMany getId s es).map Prod.fst).toFinset
        = (s.map Prod.fst).toFinset ∪ (es.map getId).toFinset := by
  intro es
  induction es with
  | nil => intro s; simp [adapterAddMany]
  | cons e tl ih =>
    intro s
    have hstep : adapterAddMany getId s (e :: tl)
        = adapterAddMany getId (adapterAddOne getId s e) tl := by
      simp [adapterAddMany]
    rw [hstep, ih, keys_adapterAddOne_toFinset]
    simp only [List.map_cons, List.toFinset_cons]
    rw [Finset.insert_union, Finset.union_insert]

/-- The keys of a well-formed collection carry no duplicates. -/
theorem keys_nodup_of_wf {α : Type} {getId : α → Nat} {s : EntitiesRecord α}
    (hwf : EntitiesWF getId s) : (s.map Prod.fst).Nodup := by
  have h : (s.map Prod.fst).Pairwise (· < ·) :=
    List.pairwise_map.mpr hwf.1
  exact h.imp (fun hlt => Nat.ne_of_lt hlt)

/-- Size of a collection built by addMany from the empty state: the number of
distinct ids among the listed entities. -/
theorem length_adapterAddMany_empty {α : Type} (getId : α → Nat)
    (es : List α) :
    (adapterAddMany getId ([] : EntitiesRecord α) es).length
      = (es.map getId).dedup.length := by
  have hwf := wf_adapterAddMany es (wf_empty getId)
  have hnd := keys_nodup_of_wf hwf
  have h1 : (adapterAddMany getId ([] : EntitiesRecord α) es).length
      = ((adapterAddMany getId ([] : EntitiesRecord α) es).map Prod.fst).length := by
    rw [List.length_map]
  rw [h1, ← List.toFinset_card_of_nodup hnd, keys_adapterAddMany_toFinset]
  simp only [List.map_nil, List.toFinset_nil, Finset.empty_union]
  exact List.card_toFinset _

/-- On a well-formed collection the enumerated values carry strictly
ascending ids. -/
theorem objectValues_pairwise_of_wf {α : Type} {getId : α → Nat}
    {s : EntitiesRecord α} (hwf : EntitiesWF getId s) :
    (objectValues s).Pairwise (fun a b => getId a < getId b) := by
  have h : s.Pairwise (fun p q => getId p.2 < getId q.2) :=
    List.Pairwise.imp_of_mem
      (fun ha hb hlt => by
        rw [hwf.2 _ ha, hwf.2 _ hb]
        exact hlt)
      hwf.1
  exact List.pairwise_map.mpr h

/-- On a well-formed collection a successful read returns an entity carrying
the requested id. -/
theorem jsGet_id_of_wf {α : Type} {getId : α → Nat} {k : Nat} {v : α} :
    ∀ {s : EntitiesRecord α}, EntitiesWF getId s → jsGet k s = some v →
      getId v = k := by
  intro s
  induction s with
  | nil => intro _ h; simp [jsGet] at h
  | cons hd tl ih =>
    intro hwf h
    obtain ⟨a, b⟩ := hd
    by_cases h1 : a = k
    · simp only [jsGet, if_pos h1] at h
      have := hwf.2 (a, b) (List.mem_cons_self _ _)
      cases h
      simpa [h1] using this
    · simp only [jsGet, if_neg h1] at h
      exact ih ⟨(List.pairwise_cons.mp hwf.1).2,
        fun p hp => hwf.2 p (List.mem_cons_of_mem _ hp)⟩ h

/-- A keyed write of an entity carrying its key preserves well-formedness. -/
theorem wf_jsSet {α : Type} {getId : α → Nat} {s : EntitiesRecord α}
    (hwf : EntitiesWF getId s) {k : Nat} {v : α} (hid : getId v = k) :
    EntitiesWF getId (jsSet k v s) := by
  refine ⟨pairwise_jsSet _ _ hwf.1, ?_⟩
  intro p hp
  rcases mem_jsSet hp with h | h
  · simp [h, hid]
  · exact hwf.2 p h

/-- A message-only update on a present review rewrites exactly that review in
place. -/
theorem reviewsUpdateOne_message {k : Nat} {m : String}
    {s : EntitiesRecord IReviewsEntity} (hwf : EntitiesWF reviewId s)
    {v : IReviewsEntity} (hv : jsGet k s = some v) :
    reviewsUpdateOne k { message := some m } s
      = jsSet k { v with message := m } s := by
  have hid : v.id = k := jsGet_id_of_wf hwf hv
  rw [reviewsUpdateOne, hv]
  have happ : applyReviewChanges { message := some m } v
      = { v with message := m } := by
    simp [applyReviewChanges]
  simp only [happ]
  rw [if_pos]
  exact hid

/-- C1 (counterexample): the round-trip claim fails as stated.  The nested
report dupIdReport has internally consistent embedded reviews (vacuously, it
has no indicator), yet its top-level list carries two entries with id 1 and
different fields; addMany keeps only the first, and the denormalized report
repeats that first entry where the second stood, so the field values of the
reviews are not reproduced in order. -/
theorem claim1_counterexample :
    (∀ ind ∈ dupIdReport.reviewsIndicatorList, ∀ r ∈ ind.reviewsList,
      r ∈ dupIdReport.reviewsList)
  ∧ selectDenormalizedReviewsReports
      (commitNormalizedReport dupIdReport emptyRootState)
      = [{ reviewsList := [sampleReview1, sampleReview1]
         , reviewsIndicatorList := [] }]
  ∧ selectDenormalizedReviewsReports
      (commitNormalizedReport dupIdReport emptyRootState)
      ≠ [dupIdReport] := by decide

/-- C1 (amended): for every nested report whose top-level review list is
determined by ids (no two entries share an id with different fields) and
whose embedded reviews each appear in the top-level list, committing the
normalizer output to an empty store and deriving the Report view yields
exactly the original nested report. -/
theorem claim1_roundtrip (raw : IReviewsReportsEntity)
    (huniq : ∀ a ∈ raw.reviewsList, ∀ b ∈ raw.reviewsList, a.id = b.id → a = b)
    (hcons : ∀ ind ∈ raw.reviewsIndicatorList, ∀ r ∈ ind.reviewsList,
      r ∈ raw.reviewsList) :
    selectDenormalizedReviewsReports (commitNormalizedReport raw emptyRootState)
      = [raw] :=
  commit_reports_view raw huniq hcons

/-- Witness for C1 on the concrete scenario of the spec. -/
theorem claim1_roundtrip_witness :
    selectDenormalizedReviewsReports
        (commitNormalizedReport sampleReport emptyRootState)
      = [sampleReport] :=
  claim1_roundtrip sampleReport (by decide) (by decide)

/-- C2: the normalizer emits the flat report record with id 0, the top-level
review ids in original order and the indicator positions 0..n-1, and for each
position an indicator record keyed by position with type and growth copied
verbatim and the embedded review ids in original order. -/
theorem claim2_normalizer (raw : IReviewsReportsEntity) :
    (normalizeReviewsReportEntity raw).report.id = 0
  ∧ (normalizeReviewsReportEntity raw).report.reviewIds
      = raw.reviewsList.map (fun review => review.id)
  ∧ (normalizeReviewsReportEntity raw).report.reviewsIndicatorIds
      = List.range raw.reviewsIndicatorList.length
  ∧ (normalizeReviewsReportEntity raw).indicators.length
      = raw.reviewsIndicatorList.length
  ∧ ∀ i, (normalizeReviewsReportEntity raw).indicators.get? i
      = (raw.reviewsIndicatorList.get? i).map (fun indicator =>
          { id := i
          , type := indicator.type
          , monthGrowthPercentage := indicator.monthGrowthPercentage
          , reviewIds := indicator.reviewsList.map (fun review => review.id) }) := by
  refine ⟨rfl, rfl, rfl, ?_, ?_⟩
  · simp [normalizeReviewsReportEntity, List.length_mapIdx]
  · intro i
    exact normalize_indicators_get? raw i

/-- C3: on a well-formed review collection, both joining selectors drop
exactly the unresolvable references: the derived lists are the filterMap of
the stored id lists through the keyed lookup (reviews) and through the
positional lookup (indicators), so every resolvable reference survives in
order and a missing one is silently omitted; the derivations are total, no
error is raised. -/
theorem claim3_lenient_join (s : RootState)
    (hwf : EntitiesWF reviewId s.reviews) :
    selectDenormalizedReviewsIndicators s
      = (objectValues s.reviewsIndicators).map (fun indicator =>
          { reviewsList := indicator.reviewIds.filterMap
              (fun i => jsGet i s.reviews)
          , type := indicator.type
          , monthGrowthPercentage := indicator.monthGrowthPercentage })
  ∧ selectDenormalizedReviewsReports s
      = (objectValues s.reviewsReport).map (fun report =>
          { reviewsList := report.reviewIds.filterMap
              (fun i => jsGet i s.reviews)
          , reviewsIndicatorList := report.reviewsIndicatorIds.filterMap
              (fun i => (selectDenormalizedReviewsIndicators s).get? i) }) := by
  have hfn : (fun i => (selectDenormalizedReviews s).find?
      (fun review => review.id == i)) = fun i => jsGet i s.reviews := by
    funext i
    have h := find?_objectValues i hwf
    simp only [reviewId] at h
    exact h
  constructor
  · simp only [selectDenormalizedReviewsIndicators,
      selectReviewsIndicatorsEntities, hfn, reduceOption_map_eq_filterMap]
  · simp only [selectDenormalizedReviewsReports, selectReviewsReportEntities,
      selectDenormalizedReviewsIndicators, selectReviewsIndicatorsEntities,
      findAtIndex, hfn, reduceOption_map_eq_filterMap]

/-- Witness for C3 on a store with dangling references (review id 99 and
indicator position 7 resolve to nothing and are dropped). -/
theorem claim3_lenient_join_witness :
    EntitiesWF reviewId danglingState.reviews
  ∧ selectDenormalizedReviewsIndicators danglingState
      = (objectValues danglingState.reviewsIndicators).map (fun indicator =>
          { reviewsList := indicator.reviewIds.filterMap
              (fun i => jsGet i danglingState.reviews)
          , type := indicator.type
          , monthGrowthPercentage := indicator.monthGrowthPercentage }) :=
  ⟨by decide, (claim3_lenient_join danglingState (by decide)).1⟩

/-- C4: the Report view resolves an indicator id k positionally, to the k-th
element of the Indicators view, never to the element whose stored id field is
k; witnessed also on a store whose only indicator sits under key 7 with id
field 7 while the report references indicator id 0. -/
theorem claim4_positional_join (s : RootState) :
    (selectDenormalizedReviewsReports s
      = (objectValues s.reviewsReport).map (fun report =>
          { reviewsList := (report.reviewIds.map (fun i =>
              (selectDenormalizedReviews s).find?
                (fun review => review.id == i))).reduceOption
          , reviewsIndicatorList := report.reviewsIndicatorIds.filterMap
              (fun k => (selectDenormalizedReviewsIndicators s).get? k) }))
  ∧ (selectDenormalizedReviewsReports positionalState).map
      (fun rep => rep.reviewsIndicatorList.map
        (fun d => d.monthGrowthPercentage)) = [[77]] := by
  constructor
  · simp only [selectDenormalizedReviewsReports, selectReviewsReportEntities,
      findAtIndex, reduceOption_map_eq_filterMap]
  · decide

/-- C5 (counterexample): insert-one does not replace.  Inserting
sampleReview1b (id 1) into a collection already holding sampleReview1 (id 1)
leaves the collection holding sampleReview1, not the inserted record. -/
theorem claim5_counterexample :
    jsGet 1 (adapterAddOne reviewId
        (adapterAddOne reviewId [] sampleReview1) sampleReview1b)
      = some sampleReview1
  ∧ sampleReview1b ≠ sampleReview1
  ∧ sampleReview1b.id = 1 := by decide

/-- C5 (amended): insert-one adds the record only when its id is absent and
is a no-op when a record with the same id is already stored; other ids are
unaffected; insert-many is repeated insert-one. -/
theorem claim5_insert (α : Type) (getId : α → Nat) (s : EntitiesRecord α)
    (e : α) :
    (jsGet (getId e) s = none →
      jsGet (getId e) (adapterAddOne getId s e) = some e)
  ∧ (∀ v, jsGet (getId e) s = some v → adapterAddOne getId s e = s)
  ∧ (∀ k, k ≠ getId e →
      jsGet k (adapterAddOne getId s e) = jsGet k s)
  ∧ (∀ es, adapterAddMany getId s es = es.foldl (adapterAddOne getId) s) := by
  refine ⟨?_, ?_, ?_, ?_⟩
  · intro h
    rw [jsGet_adapterAddOne_of_none h]
    simp
  · intro v hv
    unfold adapterAddOne
    simp [hv]
  · intro k hk
    cases h : jsGet k s with
    | some v => exact jsGet_adapterAddOne_of_some h e
    | none =>
      rw [jsGet_adapterAddOne_of_none h]
      rw [if_neg (fun hc => hk hc.symm)]
  · intro es
    rfl

/-- Witness for C5: adding a fresh review stores it; adding a second review
with an already-present id is a no-op. -/
theorem claim5_insert_witness :
    (jsGet (reviewId sampleReview1) (adapterAddOne reviewId [] sampleReview1)
      = some sampleReview1)
  ∧ (adapterAddOne reviewId
      (adapterAddOne reviewId [] sampleReview1) sampleReview1b
      = adapterAddOne reviewId [] sampleReview1) :=
  ⟨(claim5_insert IReviewsEntity reviewId [] sampleReview1).1 (by decide)
  , (claim5_insert IReviewsEntity reviewId
      (adapterAddOne reviewId [] sampleReview1) sampleReview1b).2.1
        sampleReview1 (by decide)⟩

/-- C6: the Reviews view depends only on the review collection, the
Indicators view only on the review and indicator collections, and rerunning a
derivation on an unchanged store returns the same derived value. -/
theorem claim6_dependencies (s1 s2 : RootState) :
    (s1.reviews = s2.reviews →
      selectDenormalizedReviews s1 = selectDenormalizedReviews s2)
  ∧ (s1.reviews = s2.reviews → s1.reviewsIndicators = s2.reviewsIndicators →
      selectDenormalizedReviewsIndicators s1
        = selectDenormalizedReviewsIndicators s2)
  ∧ (s1 = s2 →
      selectDenormalizedReviewsReports s1
        = selectDenormalizedReviewsReports s2) := by
  refine ⟨?_, ?_, ?_⟩
  · intro h
    simp only [selectDenormalizedReviews, selectReviewsEntities, h]
  · intro h1 h2
    simp only [selectDenormalizedReviewsIndicators,
      selectReviewsIndicatorsEntities, selectDenormalizedReviews,
      selectReviewsEntities, h1, h2]
  · intro h
    rw [h]

/-- Witness for C6: two different stores agreeing on reviews and indicators
(the report collection differs) give the same Indicators view. -/
theorem claim6_dependencies_witness :
    danglingState ≠ reportlessState
  ∧ selectDenormalizedReviewsIndicators danglingState
      = selectDenormalizedReviewsIndicators reportlessState :=
  ⟨by decide, (claim6_dependencies danglingState reportlessState).2.1 rfl rfl⟩

/-- C7 (counterexample): the size of the committed review collection is not
the number of distinct embedded review ids.  topOnlyReport embeds no review
at all (N = M = 0), yet after normalize and commit the review collection
holds its 2 top-level reviews. -/
theorem claim7_counterexample :
    totalEmbeddedReviews topOnlyReport = 0
  ∧ distinctEmbeddedReviewIds topOnlyReport = 0
  ∧ (objectValues
      (commitNormalizedReport topOnlyReport emptyRootState).reviews).length
      = 2 := by decide

/-- C7 (amended): after normalizing a report and committing to the empty
store, the review collection holds exactly one entry per distinct identifier
of the top-level review list (the collection is populated from the top-level
list, not from the embedded ones). -/
theorem claim7_count (raw : IReviewsReportsEntity) :
    (objectValues
        (commitNormalizedReport raw emptyRootState).reviews).length
      = (raw.reviewsList.map (fun review => review.id)).dedup.length := by
  have hc : (commitNormalizedReport raw emptyRootState).reviews
      = adapterAddMany reviewId [] (normalizeReviewsReportEntity raw).reviews :=
    rfl
  rw [hc, normalize_reviews_eq]
  simp only [objectValues, List.length_map]
  exact length_adapterAddMany_empty reviewId raw.reviewsList

/-- C8: after committing a normalized report, a message update on review k
shows the new message in the Reviews view and inside every derived indicator
whose record references k, while the indicator collection is untouched. -/
theorem claim8_update_propagation (raw : IReviewsReportsEntity) (k : Nat)
    (m : String) (v : IReviewsEntity)
    (hv : jsGet k (commitNormalizedReport raw emptyRootState).reviews
      = some v) :
    ((selectDenormalizedReviews (updateReviewMessage k m
        (commitNormalizedReport raw emptyRootState))).find?
          (fun review => review.id == k) = some { v with message := m })
  ∧ (∀ i ind,
      (objectValues (updateReviewMessage k m
          (commitNormalizedReport raw emptyRootState)).reviewsIndicators).get? i
        = some ind →
      k ∈ ind.reviewIds →
      ∃ dv, (selectDenormalizedReviewsIndicators (updateReviewMessage k m
          (commitNormalizedReport raw emptyRootState))).get? i = some dv
        ∧ { v with message := m } ∈ dv.reviewsList)
  ∧ (updateReviewMessage k m
      (commitNormalizedReport raw emptyRootState)).reviewsIndicators
      = (commitNormalizedReport raw emptyRootState).reviewsIndicators := by
  have hwf0 := commit_reviews_wf raw
  have hid : v.id = k := jsGet_id_of_wf hwf0 hv
  have hupd : (updateReviewMessage k m
      (commitNormalizedReport raw emptyRootState)).reviews
      = jsSet k { v with message := m }
          (commitNormalizedReport raw emptyRootState).reviews :=
    reviewsUpdateOne_message hwf0 hv
  have hwf1 : EntitiesWF reviewId (updateReviewMessage k m
      (commitNormalizedReport raw emptyRootState)).reviews := by
    rw [hupd]
    exact wf_jsSet hwf0 hid
  have hget1 : jsGet k (updateReviewMessage k m
      (commitNormalizedReport raw emptyRootState)).reviews
      = some { v with message := m } := by
    rw [hupd, jsGet_jsSet]
    simp
  have hfind1 : (selectDenormalizedReviews (updateReviewMessage k m
      (commitNormalizedReport raw emptyRootState))).find?
        (fun review => review.id == k) = some { v with message := m } := by
    have h := find?_objectValues k hwf1
    simp only [reviewId] at h
    exact h.trans hget1
  refine ⟨hfind1, ?_, rfl⟩
  intro i ind hind hk
  refine ⟨{ reviewsList := (ind.reviewIds.map (fun j =>
                (selectDenormalizedReviews (updateReviewMessage k m
                  (commitNormalizedReport raw emptyRootState))).find?
                    (fun review => review.id == j))).reduceOption,
              type := ind.type,
              monthGrowthPercentage := ind.monthGrowthPercentage }, ?_, ?_⟩
  · simp only [selectDenormalizedReviewsIndicators,
      selectReviewsIndicatorsEntities, List.get?_map, hind, Option.map_some']
  · rw [List.reduceOption_mem_iff]
    exact List.mem_map.mpr ⟨k, hk, hfind1⟩

/-- Witness for C8: updating the message of review 1 in the committed
concrete scenario shows the new message in the Reviews view. -/
theorem claim8_update_propagation_witness :
    (selectDenormalizedReviews (updateReviewMessage 1 "Updated"
        (commitNormalizedReport sampleReport emptyRootState))).find?
          (fun review => review.id == 1)
      = some { sampleReview1 with message := "Updated" } :=
  (claim8_update_propagation sampleReport 1 "Updated" sampleReview1
    (by decide)).1

/-- C9 (counterexample): the Reviews view does not follow insertion order.
Inserting review 2 and then review 1 yields the view in ascending id order,
review 1 first, because the selector enumerates the id-keyed entities record
and integer keys enumerate in ascending numeric order. -/
theorem claim9_counterexample :
    selectDenormalizedReviews
        { reviews := adapterAddMany reviewId [] [sampleReview2, sampleReview1]
        , reviewsIndicators := [], reviewsReport := [] }
      = [sampleReview1, sampleReview2]
  ∧ [sampleReview1, sampleReview2]
      ≠ ([sampleReview2, sampleReview1] : List IReviewsEntity) := by decide

/-- C9 (amended): after any sequence of inserts into an initially empty
review collection (insert-one and insert-many sequences are exactly the
addMany of the concatenated record list), the Reviews view lists the records
in strictly ascending id order. -/
theorem claim9_ascending (l : List IReviewsEntity)
    (ind : EntitiesRecord IReviewsIndicatorsSliceEntity)
    (rep : EntitiesRecord IReviewsReportSliceEntity) :
    (selectDenormalizedReviews
        { reviews := adapterAddMany reviewId [] l
        , reviewsIndicators := ind, reviewsReport := rep }).Pairwise
      (fun a b => a.id < b.id) := by
  have hwf := wf_adapterAddMany l (wf_empty reviewId)
  have h := objectValues_pairwise_of_wf hwf
  simp only [reviewId] at h
  exact h

/-- C10: removing the indicator stored under id 0 re-targets the positional
join: with records under ids 0 and 1 and a report referencing indicator ids
0 and 1, after remove-one(0) the Report view holds exactly one indicator,
the one stored under id 1 (now at position 0), and indicator id 1 falls out
of range and is dropped. -/
theorem claim10_remove_retarget (rvs : EntitiesRecord IReviewsEntity)
    (ind0 ind1 : IReviewsIndicatorsSliceEntity)
    (rep : IReviewsReportSliceEntity)
    (hids : rep.reviewsIndicatorIds = [0, 1]) :
    (selectDenormalizedReviewsReports
        { reviews := rvs
        , reviewsIndicators := adapterRemoveOne [(0, ind0), (1, ind1)] 0
        , reviewsReport := [(0, rep)] }).map
      (fun r => r.reviewsIndicatorList.map
        (fun d => (d.type, d.monthGrowthPercentage)))
      = [[(ind1.type, ind1.monthGrowthPercentage)]] := by
  have hrm : adapterRemoveOne [(0, ind0), (1, ind1)] 0 = [(1, ind1)] := by
    simp [adapterRemoveOne, jsDelete]
  rw [hrm]
  simp [selectDenormalizedReviewsReports, selectReviewsReportEntities,
    selectDenormalizedReviewsIndicators, selectReviewsIndicatorsEntities,
    objectValues, findAtIndex, hids, List.reduceOption, List.get?]

/-- Witness for C10 on concrete indicator and report records. -/
theorem claim10_remove_retarget_witness :
    (selectDenormalizedReviewsReports
        { reviews := []
        , reviewsIndicators := adapterRemoveOne
            [(0, sampleIndicatorRecord0), (1, sampleIndicatorRecord1)] 0
        , reviewsReport := [(0, sampleReportRecord)] }).map
      (fun r => r.reviewsIndicatorList.map
        (fun d => (d.type, d.monthGrowthPercentage)))
      = [[(sampleIndicatorRecord1.type,
            sampleIndicatorRecord1.monthGrowthPercentage)]] :=
  claim10_remove_retarget [] sampleIndicatorRecord0 sampleIndicatorRecord1
    sampleReportRecord (by decide)
